import Mathlib

/-!
Verification development for the `memory-sidecar` package of the
GiantCroissant-Lunar/giant-isopod repository.

The Python sources under `src/memory-sidecar/src/memory_sidecar/` are shallowly
embedded below: pure helpers become Lean functions on `List Char` / `Nat` / `ℚ`;
the SQLite state becomes explicit record passing; process-global flags (the
sqlite-vec availability flag) become explicit `Bool` parameters; external
collaborators (the embedding model, tree-sitter parsers, the sqlite-vec
nearest-neighbour engine) become function parameters, as the spec designates
them opaque.
-/

namespace MemorySidecar

/-! ## Vector codec — `storage._serialize_vec` (storage.py lines 156–158)

A Python float passed to `struct.pack("{n}f", ...)` is stored as its IEEE-754
single-precision representation.  We model a float32 by its 32-bit pattern
(a `Nat < 2^32`); `struct.pack` with the homogeneous `"f"` format writes each
pattern as 4 bytes in native order, which is little-endian on every platform
the package targets. -/

/-- The four little-endian bytes of a 32-bit word. -/
def word32BytesLE (b : Nat) : List Nat :=
  [b % 256, b / 256 % 256, b / 65536 % 256, b / 16777216 % 256]

/-- `storage._serialize_vec`: pack each element as 4 little-endian bytes,
one after another, no header. -/
def serializeVec : List Nat → List Nat
  | [] => []
  | b :: rest => word32BytesLE b ++ serializeVec rest

/-- Modelled from the spec: the repository has no deserializer under `src/`
(its tests unpack by hand); §4.1 of the spec says deserialization is symmetric
to serialization and fails iff the byte length is not a multiple of 4. -/
def deserializeVec : List Nat → Option (List Nat)
  | [] => some []
  | b0 :: b1 :: b2 :: b3 :: rest =>
      (deserializeVec rest).map
        (fun v => (b0 + 256 * b1 + 65536 * b2 + 16777216 * b3) :: v)
  | _ => none

theorem serializeVec_length (v : List Nat) : (serializeVec v).length = 4 * v.length := by
  induction v with
  | nil => simp [serializeVec]
  | cons b rest ih =>
      simp [serializeVec, word32BytesLE] at ih ⊢
      omega

theorem serializeVec_nil : serializeVec [] = [] := rfl

theorem serializeVec_bytes_lt (v : List Nat) : ∀ b ∈ serializeVec v, b < 256 := by
  induction v with
  | nil => simp [serializeVec]
  | cons x rest ih =>
      intro b hb
      simp only [serializeVec, List.mem_append] at hb
      rcases hb with hb | hb
      · simp only [word32BytesLE, List.mem_cons, List.not_mem_nil, or_false] at hb
        rcases hb with h | h | h | h <;> omega
      · exact ih b hb

theorem deserialize_serialize (v : List Nat) (hv : ∀ b ∈ v, b < 4294967296) :
    deserializeVec (serializeVec v) = some v := by
  induction v with
  | nil => simp [serializeVec, deserializeVec]
  | cons b rest ih =>
      have hb : b < 4294967296 := hv b (List.mem_cons_self _ _)
      have hrest : ∀ x ∈ rest, x < 4294967296 := fun x hx => hv x (List.mem_cons_of_mem _ hx)
      have hrec := ih hrest
      simp only [serializeVec, word32BytesLE, List.cons_append, List.nil_append, deserializeVec,
        List.append_nil, List.nil_append, List.append_eq]
      rw [hrec]
      simp only [Option.map_some']
      congr 2
      omega

theorem deserializeVec_none_iff (bs : List Nat) :
    deserializeVec bs = none ↔ bs.length % 4 ≠ 0 := by
  match bs with
  | [] => simp [deserializeVec]
  | [b0] => simp [deserializeVec]
  | [b0, b1] => simp [deserializeVec]
  | [b0, b1, b2] => simp [deserializeVec]
  | b0 :: b1 :: b2 :: b3 :: rest =>
      have ih := deserializeVec_none_iff rest
      simp only [deserializeVec, List.length_cons]
      constructor
      · intro h
        have : deserializeVec rest = none := by
          cases hd : deserializeVec rest with
          | none => rfl
          | some v => rw [hd] at h; simp at h
        have hmod := ih.mp this
        omega
      · intro h
        have : rest.length % 4 ≠ 0 := by omega
        rw [ih.mpr this]
        rfl

/-- C2: serializing a vector of `D` float32 values yields exactly `4·D` bytes,
the empty vector serializes to the empty byte string, deserialization inverts
serialization exactly, and deserialization fails exactly when the byte length
is not a multiple of 4. -/
theorem C2_vector_codec (v : List Nat) (hv : ∀ b ∈ v, b < 4294967296) :
    (serializeVec v).length = 4 * v.length ∧
    serializeVec [] = [] ∧
    (∀ b ∈ serializeVec v, b < 256) ∧
    deserializeVec (serializeVec v) = some v ∧
    (∀ bs : List Nat, deserializeVec bs = none ↔ bs.length % 4 ≠ 0) :=
  ⟨serializeVec_length v, serializeVec_nil, serializeVec_bytes_lt v,
    deserialize_serialize v hv, deserializeVec_none_iff⟩

/-- Witness for C2 at the concrete vector `[1065353216, 0]`
(the bit patterns of 1.0f and 0.0f). -/
theorem C2_vector_codec_witness :
    (∀ b ∈ [1065353216, 0], b < 4294967296) ∧
    ((serializeVec [1065353216, 0]).length = 4 * ([1065353216, 0] : List Nat).length ∧
      serializeVec [] = [] ∧
      (∀ b ∈ serializeVec [1065353216, 0], b < 256) ∧
      deserializeVec (serializeVec [1065353216, 0]) = some [1065353216, 0] ∧
      (∀ bs : List Nat, deserializeVec bs = none ↔ bs.length % 4 ≠ 0)) :=
  ⟨by decide, C2_vector_codec [1065353216, 0] (by decide)⟩

/-! ## Chunker, text mode — `chunking.split_simple` (chunking.py lines 93–112)

Python strings are modelled as `List Char`; slicing, `str.rfind("\n", a, b)`
and the truthiness of `str.strip()` are modelled below.  A chunk's
`"{chunk_idx}:{start_byte}"` location string is kept as the structured pair
`(locIdx, locStart)` together with its rendering. -/

/-- A chunk dict `{"text": ..., "location": f"{idx}:{start}"}`. -/
structure Chunk where
  text : List Char
  locIdx : Nat
  locStart : Nat
deriving DecidableEq

/-- The location string `f"{idx}:{start}"` of a chunk. -/
def Chunk.location (c : Chunk) : String :=
  toString c.locIdx ++ ":" ++ toString c.locStart

/-- Truthiness of `text.strip()`: true iff some character is not whitespace. -/
def hasNonWs (l : List Char) : Bool :=
  l.any (fun c => !c.isWhitespace)

/-- Python slice `l[a:b]`. -/
def pySlice (l : List Char) (a b : Nat) : List Char :=
  (l.take b).drop a

/-- Python `content.rfind("\n", start, stop)`: the largest index `i` with
`start ≤ i < stop` and `content[i] = '\n'`, if any. -/
def pyRfindNl (content : List Char) (start stop : Nat) : Option Nat :=
  (List.range' start (stop - start)).reverse.find? (fun i => content.getD i ' ' == '\n')

/-- The `end` computation of one `split_simple` iteration (chunking.py 101–105):
`end = min(start+chunk_size, len)`, then moved one past the last newline
strictly after `start` when not at end of file. -/
def chunkEnd (content : List Char) (chunkSize start : Nat) : Nat :=
  let e := min (start + chunkSize) content.length
  if e < content.length then
    match pyRfindNl content start e with
    | some nl => if start < nl then nl + 1 else e
    | none => e
  else e

/-- The `start` update of one `split_simple` iteration (chunking.py 110–111):
`advance = end - overlap` when not at end of file, else `end`; then
`start = max(advance, start + 1)`.  Python's `end - overlap` may be negative,
in which case `max` picks `start + 1` — exactly as with ℕ truncated
subtraction, so the two agree. -/
def nextStart (content : List Char) (chunkSize overlap start : Nat) : Nat :=
  max (if chunkEnd content chunkSize start < content.length
        then chunkEnd content chunkSize start - overlap
        else chunkEnd content chunkSize start)
    (start + 1)

/-- The `while start < len(content)` loop of `split_simple`; the second
component counts loop iterations. -/
def splitSimpleLoop (content : List Char) (chunkSize overlap : Nat) (start idx : Nat) :
    List Chunk × Nat :=
  if h : start < content.length then
    if hasNonWs (pySlice content start (chunkEnd content chunkSize start)) then
      let r := splitSimpleLoop content chunkSize overlap
        (nextStart content chunkSize overlap start) (idx + 1)
      (⟨pySlice content start (chunkEnd content chunkSize start), idx, start⟩ :: r.1, r.2 + 1)
    else
      let r := splitSimpleLoop content chunkSize overlap
        (nextStart content chunkSize overlap start) idx
      (r.1, r.2 + 1)
  else ([], 0)
termination_by content.length - start
decreasing_by
  all_goals
    have hs : start + 1 ≤ nextStart content chunkSize overlap start := le_max_right _ _
    omega

/-- `chunking.split_simple`. -/
def split_simple (content : List Char) (chunkSize overlap : Nat) : List Chunk :=
  if content.length ≤ chunkSize then [⟨content, 0, 0⟩]
  else (splitSimpleLoop content chunkSize overlap 0 0).1

/-- Number of iterations the `split_simple` while-loop performs. -/
def splitSimpleIters (content : List Char) (chunkSize overlap : Nat) : Nat :=
  if content.length ≤ chunkSize then 0
  else (splitSimpleLoop content chunkSize overlap 0 0).2

theorem splitSimpleLoop_iters_le (content : List Char) (chunkSize overlap start idx : Nat) :
    (splitSimpleLoop content chunkSize overlap start idx).2 ≤ content.length - start := by
  rw [splitSimpleLoop]
  split
  next h =>
    have hs : start + 1 ≤ nextStart content chunkSize overlap start := le_max_right _ _
    have ih1 := splitSimpleLoop_iters_le content chunkSize overlap
      (nextStart content chunkSize overlap start) (idx + 1)
    have ih2 := splitSimpleLoop_iters_le content chunkSize overlap
      (nextStart content chunkSize overlap start) idx
    split <;> simp only [] <;> omega
  next h => simp
termination_by content.length - start
decreasing_by
  all_goals
    have hs : start + 1 ≤ nextStart content chunkSize overlap start := le_max_right _ _
    omega

theorem splitSimpleLoop_map_idx (content : List Char) (chunkSize overlap start idx : Nat) :
    (splitSimpleLoop content chunkSize overlap start idx).1.map Chunk.locIdx =
      List.range' idx (splitSimpleLoop content chunkSize overlap start idx).1.length := by
  rw [splitSimpleLoop]
  split
  next h =>
    have ih1 := splitSimpleLoop_map_idx content chunkSize overlap
      (nextStart content chunkSize overlap start) (idx + 1)
    have ih2 := splitSimpleLoop_map_idx content chunkSize overlap
      (nextStart content chunkSize overlap start) idx
    split
    · simp only [List.map_cons, List.length_cons, List.range'_succ, ih1]
    · simpa using ih2
  next h => simp
termination_by content.length - start
decreasing_by
  all_goals
    have hs : start + 1 ≤ nextStart content chunkSize overlap start := le_max_right _ _
    omega

/-- C3: for every content, chunk size `s > 0` and any overlap (including
overlap ≥ s), the text-mode chunker performs at most `len(content)` loop
iterations, and every iteration advances `start` by at least one position. -/
theorem C3_text_chunker_terminates (content : List Char) (chunkSize overlap : Nat)
    (h : 0 < chunkSize) :
    splitSimpleIters content chunkSize overlap ≤ content.length ∧
    (∀ start, start + 1 ≤ nextStart content chunkSize overlap start) := by
  refine ⟨?_, fun start => le_max_right _ _⟩
  unfold splitSimpleIters
  split
  · exact Nat.zero_le _
  · have := splitSimpleLoop_iters_le content chunkSize overlap 0 0
    omega

/-- Witness for C3 on the string `"ab\ncd"` with chunk size 2 and overlap 5
(overlap larger than the chunk size). -/
theorem C3_text_chunker_terminates_witness :
    0 < 2 ∧
    (splitSimpleIters ['a', 'b', '\n', 'c', 'd'] 2 5 ≤
        (['a', 'b', '\n', 'c', 'd'] : List Char).length ∧
      ∀ start, start + 1 ≤ nextStart ['a', 'b', '\n', 'c', 'd'] 2 5 start) :=
  ⟨by decide, C3_text_chunker_terminates ['a', 'b', '\n', 'c', 'd'] 2 5 (by decide)⟩

/-! ## Chunker, AST mode — `chunking.split_ast` (chunking.py lines 131–179)

Tree-sitter is an external collaborator: we model a collected top-level node by
its decoded text and start byte, and embed the grouping loop (lines 150–179)
over an arbitrary list of such nodes.  `split_ast` itself takes the collected
node list as an argument (lines 143–148 parse and collect; an unavailable
parser, the `None` return, happens before this point). -/

/-- A collected top-level tree-sitter node: its decoded text
`source[node.start_byte : node.end_byte]` and its `start_byte`. -/
structure AstNode where
  text : List Char
  startByte : Nat
deriving DecidableEq

/-- Python `"\n".join(texts)`. -/
def joinNL : List (List Char) → List Char
  | [] => []
  | [t] => t
  | t :: ts => t ++ '\n' :: joinNL ts

/-- The grouping loop of `split_ast` (chunking.py 156–177): running buffer of
node texts, running character count, start byte of the current group, and the
next chunk index; the trailing flush of lines 173–177 is the `[]` case. -/
def splitAstLoop (chunkSize : Nat) :
    List AstNode → List (List Char) → Nat → Nat → Nat → List Chunk
  | [], curTexts, _, curStart, idx =>
      match curTexts with
      | [] => []
      | t :: ts =>
          if hasNonWs (joinNL (t :: ts)) then [⟨joinNL (t :: ts), idx, curStart⟩] else []
  | node :: rest, curTexts, curSize, curStart, idx =>
      if 0 < curSize ∧ chunkSize < curSize + node.text.length then
        if hasNonWs (joinNL curTexts) then
          ⟨joinNL curTexts, idx, curStart⟩ ::
            splitAstLoop chunkSize rest [node.text] node.text.length node.startByte (idx + 1)
        else
          splitAstLoop chunkSize rest [node.text] node.text.length node.startByte idx
      else
        splitAstLoop chunkSize rest (curTexts ++ [node.text]) (curSize + node.text.length)
          curStart idx

/-- `chunking.split_ast`, given the collected top-level nodes (lines 145–179):
empty node list falls back to `split_simple`, as does an all-whitespace
result. -/
def split_ast (content : List Char) (nodes : List AstNode) (chunkSize overlap : Nat) :
    List Chunk :=
  match nodes with
  | [] => split_simple content chunkSize overlap
  | n0 :: _ =>
      match splitAstLoop chunkSize nodes [] 0 n0.startByte 0 with
      | [] => split_simple content chunkSize overlap
      | c :: cs => c :: cs

/-- The sum of the text lengths of a list of nodes (the value the running
`current_size` counter takes on a buffer). -/
def sizeSum (g : List AstNode) : Nat :=
  (g.map (fun n => n.text.length)).sum

/-- The grouping of nodes into consecutive runs that `splitAstLoop` flushes:
same branch structure, but remembering whole nodes instead of rendered text. -/
def astGroups (chunkSize : Nat) : List AstNode → List AstNode → List (List AstNode)
  | [], curNodes =>
      match curNodes with
      | [] => []
      | n :: ns => [n :: ns]
  | node :: rest, curNodes =>
      if 0 < sizeSum curNodes ∧ chunkSize < sizeSum curNodes + node.text.length then
        curNodes :: astGroups chunkSize rest [node]
      else
        astGroups chunkSize rest (curNodes ++ [node])

/-- Render a list of groups the way the flushes of `splitAstLoop` do: join each
group's texts with one newline, skip whitespace-only results, and number the
kept chunks consecutively starting at `idx`; a kept chunk's start byte is its
group's first node's start byte. -/
def renderGroups (idx : Nat) : List (List AstNode) → List Chunk
  | [] => []
  | g :: gs =>
      match g with
      | [] => renderGroups idx gs
      | n0 :: ns =>
          if hasNonWs (joinNL ((n0 :: ns).map AstNode.text)) then
            ⟨joinNL ((n0 :: ns).map AstNode.text), idx, n0.startByte⟩ :: renderGroups (idx + 1) gs
          else
            renderGroups idx gs

theorem sizeSum_append (a b : List AstNode) : sizeSum (a ++ b) = sizeSum a + sizeSum b := by
  simp [sizeSum]

theorem splitAstLoop_eq_renderGroups (chunkSize : Nat) (nodes : List AstNode) :
    ∀ (curNodes : List AstNode) (curStart idx : Nat),
      (∀ n, (curNodes ++ nodes).head? = some n → curStart = n.startByte) →
      splitAstLoop chunkSize nodes (curNodes.map AstNode.text) (sizeSum curNodes) curStart idx =
        renderGroups idx (astGroups chunkSize nodes curNodes) := by
  induction nodes with
  | nil =>
      intro curNodes curStart idx hst
      cases curNodes with
      | nil => rfl
      | cons n ns =>
          have h0 : curStart = n.startByte := hst n (by simp)
          subst h0
          simp [splitAstLoop, astGroups, renderGroups]
  | cons node rest ih =>
      intro curNodes curStart idx hst
      by_cases hcond : 0 < sizeSum curNodes ∧ chunkSize < sizeSum curNodes + node.text.length
      · cases curNodes with
        | nil => simp [sizeSum] at hcond
        | cons n0 ns =>
            have h0 : curStart = n0.startByte := hst n0 (by simp)
            subst h0
            have hst1 : ∀ n, (([node] ++ rest)).head? = some n → node.startByte = n.startByte := by
              intro n hn
              simp only [List.singleton_append, List.head?_cons, Option.some.injEq] at hn
              exact congrArg AstNode.startByte hn
            have hrec1 := ih [node] node.startByte (idx + 1) hst1
            have hrec2 := ih [node] node.startByte idx hst1
            simp only [List.map_cons, List.map_nil, sizeSum, List.sum_cons, List.sum_nil,
              Nat.add_zero] at hrec1 hrec2
            simp only [splitAstLoop, astGroups]
            rw [if_pos hcond, if_pos hcond]
            simp only [renderGroups, List.map_cons]
            by_cases hws : hasNonWs (joinNL (n0.text :: ns.map AstNode.text)) = true
            · rw [if_pos hws, if_pos hws, hrec1]
            · rw [if_neg hws, if_neg hws, hrec2]
      · have hst' : ∀ n, ((curNodes ++ [node]) ++ rest).head? = some n →
            curStart = n.startByte := by
          intro n hn
          apply hst n
          rw [List.append_assoc, List.singleton_append] at hn
          exact hn
        have hrec := ih (curNodes ++ [node]) curStart idx hst'
        rw [List.map_append, sizeSum_append] at hrec
        simp only [List.map_cons, List.map_nil, sizeSum, List.sum_cons, List.sum_nil,
          Nat.add_zero] at hrec
        simp only [splitAstLoop, astGroups]
        rw [if_neg hcond, if_neg hcond]
        exact hrec

theorem astGroups_flatten (chunkSize : Nat) (nodes : List AstNode) :
    ∀ curNodes, (astGroups chunkSize nodes curNodes).flatten = curNodes ++ nodes := by
  induction nodes with
  | nil => intro curNodes; cases curNodes <;> simp [astGroups]
  | cons node rest ih =>
      intro curNodes
      by_cases hcond : 0 < sizeSum curNodes ∧ chunkSize < sizeSum curNodes + node.text.length
      · simp only [astGroups, if_pos hcond, List.flatten_cons, ih [node]]
        simp
      · simp only [astGroups, if_neg hcond, ih (curNodes ++ [node])]
        simp

theorem astGroups_ne_nil (chunkSize : Nat) (nodes : List AstNode) :
    ∀ curNodes, ∀ g ∈ astGroups chunkSize nodes curNodes, g ≠ [] := by
  induction nodes with
  | nil =>
      intro curNodes g hg
      cases curNodes with
      | nil => simp [astGroups] at hg
      | cons n ns =>
          simp only [astGroups, List.mem_singleton] at hg
          subst hg
          simp
  | cons node rest ih =>
      intro curNodes g hg
      by_cases hcond : 0 < sizeSum curNodes ∧ chunkSize < sizeSum curNodes + node.text.length
      · simp only [astGroups, if_pos hcond, List.mem_cons] at hg
        rcases hg with rfl | hg
        · intro hnil
          subst hnil
          simp [sizeSum] at hcond
        · exact ih [node] g hg
      · exact ih (curNodes ++ [node]) g (by simpa [astGroups, if_neg hcond] using hg)

theorem astGroups_small (chunkSize : Nat) :
    ∀ nodes : List AstNode, (∀ n ∈ nodes, n.text ≠ []) →
      ∀ curNodes : List AstNode, (∀ n ∈ curNodes, n.text ≠ []) →
        (curNodes.length ≤ 1 ∨ sizeSum curNodes ≤ chunkSize) →
        ∀ g ∈ astGroups chunkSize nodes curNodes,
          g.length = 1 ∨ sizeSum g ≤ chunkSize := by
  intro nodes
  induction nodes with
  | nil =>
      intro _ curNodes _ hinv g hg
      cases curNodes with
      | nil => simp [astGroups] at hg
      | cons n ns =>
          simp only [astGroups, List.mem_singleton] at hg
          subst hg
          rcases hinv with h | h

          · left
            simp only [List.length_cons] at h ⊢
            omega
          · right
            exact h
  | cons node rest ih =>
      intro hpos curNodes hcn hinv g hg
      have hposr : ∀ n ∈ rest, n.text ≠ [] := fun n hn => hpos n (List.mem_cons_of_mem _ hn)
      have hpnode : node.text ≠ [] := hpos node (List.mem_cons_self _ _)
      by_cases hcond : 0 < sizeSum curNodes ∧ chunkSize < sizeSum curNodes + node.text.length
      · simp only [astGroups, if_pos hcond, List.mem_cons] at hg
        rcases hg with rfl | hg
        · rcases hinv with h | h
          · left
            cases g with
            | nil => simp [sizeSum] at hcond
            | cons a l =>
                simp only [List.length_cons] at h ⊢
                omega
          · right
            exact h
        · refine ih hposr [node] ?_ (Or.inl (by simp)) g hg
          intro n hn
          simp only [List.mem_singleton] at hn
          subst hn
          exact hpnode
      · refine ih hposr (curNodes ++ [node]) ?_ ?_ g
          (by simpa [astGroups, if_neg hcond] using hg)
        · intro n hn
          rcases List.mem_append.mp hn with h | h
          · exact hcn n h
          · simp only [List.mem_singleton] at h
            subst h
            exact hpnode
        · rcases Nat.lt_or_ge chunkSize (sizeSum curNodes + node.text.length) with hlt | hle
          · have hz : sizeSum curNodes = 0 := by
              by_contra hnz
              exact hcond ⟨Nat.pos_of_ne_zero hnz, hlt⟩
            cases curNodes with
            | nil => left; simp
            | cons a l =>
                exfalso
                have ha : a.text ≠ [] := hcn a (List.mem_cons_self _ _)
                have : 0 < a.text.length := List.length_pos.mpr ha
                simp only [sizeSum, List.map_cons, List.sum_cons] at hz
                omega
          · right
            rw [sizeSum_append]
            have hs1 : sizeSum [node] = node.text.length := by simp [sizeSum]
            rw [hs1]
            omega

theorem renderGroups_mem (gs : List (List AstNode)) :
    ∀ idx (g : List AstNode), g ∈ gs → g ≠ [] →
      hasNonWs (joinNL (g.map AstNode.text)) = true →
      ∃ c ∈ renderGroups idx gs, c.text = joinNL (g.map AstNode.text) := by
  induction gs with
  | nil => simp
  | cons g0 gs ih =>
      intro idx g hg hne hws
      cases g0 with
      | nil =>
          rcases List.mem_cons.mp hg with rfl | hmem
          · exact absurd rfl hne
          · simp only [renderGroups]
            exact ih idx g hmem hne hws
      | cons m0 ms =>
          rcases List.mem_cons.mp hg with rfl | hmem
          · simp only [renderGroups]
            rw [if_pos hws]
            exact ⟨_, List.mem_cons_self _ _, rfl⟩
          · simp only [renderGroups]
            split
            · obtain ⟨c, hc, hct⟩ := ih (idx + 1) g hmem hne hws
              exact ⟨c, List.mem_cons_of_mem _ hc, hct⟩
            · exact ih idx g hmem hne hws

theorem splitAstLoop_map_idx (chunkSize : Nat) (nodes : List AstNode) :
    ∀ curTexts curSize curStart idx,
      (splitAstLoop chunkSize nodes curTexts curSize curStart idx).map Chunk.locIdx =
        List.range' idx (splitAstLoop chunkSize nodes curTexts curSize curStart idx).length := by
  induction nodes with
  | nil =>
      intro curTexts curSize curStart idx
      cases curTexts with
      | nil => simp [splitAstLoop]
      | cons t ts =>
          simp only [splitAstLoop]
          split <;> simp [List.range'_one]
  | cons node rest ih =>
      intro curTexts curSize curStart idx
      simp only [splitAstLoop]
      split
      · split
        · simp only [List.map_cons, List.length_cons, List.range'_succ]
          rw [ih]
        · exact ih _ _ _ _
      · exact ih _ _ _ _

theorem locIdx_get_of_map_range (l : List Chunk)
    (hmap : l.map Chunk.locIdx = List.range l.length) (i : Nat) (h : i < l.length) :
    (l.get ⟨i, h⟩).locIdx = i := by
  have hm : i < (l.map Chunk.locIdx).length := by simpa using h
  have h1 : (l.map Chunk.locIdx).get ⟨i, hm⟩ = i := by
    rw [List.get_of_eq hmap ⟨i, hm⟩]
    exact List.get_range i (by simpa using h)
  rw [List.get_map] at h1
  exact h1

/-- C5: in both text mode and AST mode (with any fallback the latter takes),
the chunk-index components of the emitted locations are 0-based, strictly
increasing and contiguous: the map of indices is exactly `[0, …, n-1]`, and
the i-th chunk (0-based) carries the location string `"{i}:{start_byte}"`. -/
theorem C5_chunk_indices_contiguous (content : List Char) (nodes : List AstNode)
    (chunkSize overlap : Nat) :
    ((split_simple content chunkSize overlap).map Chunk.locIdx =
      List.range (split_simple content chunkSize overlap).length ∧
    (split_ast content nodes chunkSize overlap).map Chunk.locIdx =
      List.range (split_ast content nodes chunkSize overlap).length) ∧
    (∀ i (h : i < (split_simple content chunkSize overlap).length),
      ((split_simple content chunkSize overlap).get ⟨i, h⟩).location =
        toString i ++ ":" ++
          toString ((split_simple content chunkSize overlap).get ⟨i, h⟩).locStart) ∧
    (∀ i (h : i < (split_ast content nodes chunkSize overlap).length),
      ((split_ast content nodes chunkSize overlap).get ⟨i, h⟩).location =
        toString i ++ ":" ++
          toString ((split_ast content nodes chunkSize overlap).get ⟨i, h⟩).locStart) := by
  have hmain : (split_simple content chunkSize overlap).map Chunk.locIdx =
      List.range (split_simple content chunkSize overlap).length ∧
    (split_ast content nodes chunkSize overlap).map Chunk.locIdx =
      List.range (split_ast content nodes chunkSize overlap).length := by
    have hsimple : (split_simple content chunkSize overlap).map Chunk.locIdx =
        List.range (split_simple content chunkSize overlap).length := by
      unfold split_simple
      split
      · rfl
      · rw [List.range_eq_range']
        exact splitSimpleLoop_map_idx content chunkSize overlap 0 0
    refine ⟨hsimple, ?_⟩
    cases nodes with
    | nil => simpa [split_ast] using hsimple
    | cons n0 ns =>
        cases hloop : splitAstLoop chunkSize (n0 :: ns) [] 0 n0.startByte 0 with
        | nil => simpa [split_ast, hloop] using hsimple
        | cons c cs =>
            have heq : split_ast content (n0 :: ns) chunkSize overlap = c :: cs := by
              simp [split_ast, hloop]
            rw [heq, List.range_eq_range', ← hloop]
            exact splitAstLoop_map_idx chunkSize (n0 :: ns) [] 0 n0.startByte 0
  refine ⟨hmain, ?_, ?_⟩
  · intro i h
    simp only [Chunk.location, locIdx_get_of_map_range _ hmain.1 i h]
  · intro i h
    simp only [Chunk.location, locIdx_get_of_map_range _ hmain.2 i h]

/-- Witness for C5 at concrete inputs (text mode on `"a"`, AST mode on an
empty node list). -/
theorem C5_chunk_indices_contiguous_witness :
    (split_simple ['a'] 5 0).map Chunk.locIdx =
      List.range (split_simple ['a'] 5 0).length :=
  (C5_chunk_indices_contiguous ['a'] [] 5 0).1.1

/-- C6: the AST-mode grouping loop, run as `split_ast` runs it on the collected
nodes, partitions the nodes into consecutive non-empty groups rendered by
joining each group's texts with a single newline (so no node's text is ever
split across chunks); every group either is a single node or fits in
`chunk_size` (the buffer is flushed only when non-empty and about to
overflow); consequently a single node whose text exceeds `chunk_size` becomes
exactly one chunk on its own.  Tree-sitter definition nodes always have
non-empty text, which is the `hpos` hypothesis. -/
theorem C6_ast_grouping (chunkSize : Nat) (n0 : AstNode) (rest : List AstNode)
    (hpos : ∀ n ∈ n0 :: rest, n.text ≠ []) :
    ∃ groups : List (List AstNode),
      groups.flatten = n0 :: rest ∧
      (∀ g ∈ groups, g ≠ []) ∧
      splitAstLoop chunkSize (n0 :: rest) [] 0 n0.startByte 0 = renderGroups 0 groups ∧
      (∀ g ∈ groups, g.length = 1 ∨ sizeSum g ≤ chunkSize) ∧
      (∀ n ∈ n0 :: rest, chunkSize < n.text.length → hasNonWs n.text = true →
        ∃ c ∈ splitAstLoop chunkSize (n0 :: rest) [] 0 n0.startByte 0, c.text = n.text) := by
  have hflat := astGroups_flatten chunkSize (n0 :: rest) []
  have hnenil := astGroups_ne_nil chunkSize (n0 :: rest) []
  have hsmall := astGroups_small chunkSize (n0 :: rest) hpos []
    (by intro n hn; simp at hn) (Or.inl (by simp))
  have hcorr : splitAstLoop chunkSize (n0 :: rest) [] 0 n0.startByte 0 =
      renderGroups 0 (astGroups chunkSize (n0 :: rest) []) := by
    have := splitAstLoop_eq_renderGroups chunkSize (n0 :: rest) [] n0.startByte 0
      (by
        intro n hn
        simp only [List.nil_append, List.head?_cons, Option.some.injEq] at hn
        exact congrArg AstNode.startByte hn)
    simpa [sizeSum] using this
  refine ⟨astGroups chunkSize (n0 :: rest) [], by simpa using hflat, hnenil, hcorr, hsmall, ?_⟩
  intro n hn hbig hws
  have hn' : n ∈ (astGroups chunkSize (n0 :: rest) []).flatten := by
    rw [hflat]
    simpa using hn
  obtain ⟨g, hg, hng⟩ := List.mem_flatten.mp hn'
  have hglen : g.length = 1 ∨ sizeSum g ≤ chunkSize := hsmall g hg
  have hle : n.text.length ≤ sizeSum g := by
    have : n.text.length ∈ g.map (fun m => m.text.length) := List.mem_map_of_mem _ hng
    exact List.single_le_sum (fun x _ => Nat.zero_le x) _ this
  have hg1 : g.length = 1 := by
    rcases hglen with h | h
    · exact h
    · omega
  have hgn : g = [n] := by
    cases g with
    | nil => simp at hg1
    | cons a l =>
        have hl : l = [] := by
          simp only [List.length_cons] at hg1
          exact List.length_eq_zero.mp (by omega)
        subst hl
        simp only [List.mem_singleton] at hng
        subst hng
        rfl
  rw [hcorr]
  have hjoin : joinNL (g.map AstNode.text) = n.text := by
    rw [hgn]
    rfl
  obtain ⟨c, hc, hct⟩ := renderGroups_mem (astGroups chunkSize (n0 :: rest) []) 0 g hg
    (by rw [hgn]; simp) (by rw [hjoin]; exact hws)
  exact ⟨c, hc, by rw [hct, hjoin]⟩

/-- Witness for C6 on two non-empty nodes with chunk size 1 (the second node
alone exceeds the budget). -/
theorem C6_ast_grouping_witness :
    (∀ n ∈ [(⟨['a'], 0⟩ : AstNode), ⟨['b', 'c', 'd'], 1⟩], n.text ≠ []) ∧
    (∃ groups : List (List AstNode),
      groups.flatten = [(⟨['a'], 0⟩ : AstNode), ⟨['b', 'c', 'd'], 1⟩] ∧
      (∀ g ∈ groups, g ≠ []) ∧
      splitAstLoop 1 [(⟨['a'], 0⟩ : AstNode), ⟨['b', 'c', 'd'], 1⟩] [] 0 0 0 =
        renderGroups 0 groups ∧
      (∀ g ∈ groups, g.length = 1 ∨ sizeSum g ≤ 1) ∧
      (∀ n ∈ [(⟨['a'], 0⟩ : AstNode), ⟨['b', 'c', 'd'], 1⟩],
        1 < n.text.length → hasNonWs n.text = true →
        ∃ c ∈ splitAstLoop 1 [(⟨['a'], 0⟩ : AstNode), ⟨['b', 'c', 'd'], 1⟩] [] 0 0 0,
          c.text = n.text)) :=
  ⟨by decide, C6_ast_grouping 1 ⟨['a'], 0⟩ [⟨['b', 'c', 'd'], 1⟩] (by decide)⟩

/-! ## Hybrid knowledge search, RRF scoring — `storage.search_knowledge_hybrid`
(storage.py lines 307–340)

Float arithmetic on scores is modelled over `ℚ`.  The two `enumerate` loops of
lines 327–336 build the `scores` dict, modelled as a total function
`String → ℚ` defaulting to 0 (`scores.get(key, 0.0)`). -/

/-- A knowledge search result dict (the fields the hybrid merge reads). -/
structure KnResult where
  content : String
  category : String
  tags : Option String
  storedAt : String
  relevance : ℚ
deriving DecidableEq

/-- The RRF surrogate key `f"{entry['stored_at']}:{entry['content'][:80]}"`. -/
def keyOf (e : KnResult) : String :=
  e.storedAt ++ ":" ++ e.content.take 80

/-- One `for rank, entry in enumerate(...)` loop of the RRF merge:
`scores[key] = scores.get(key, 0.0) + 1.0 / (rrf_k + rank + 1)`. -/
def rrfAccum (rrfK : Nat) : List String → Nat → (String → ℚ) → String → ℚ
  | [], _, scores => scores
  | key :: restKeys, rank, scores =>
      rrfAccum rrfK restKeys (rank + 1)
        (fun k => if k = key then scores key + 1 / ((rrfK : ℚ) + rank + 1) else scores k)

/-- The `scores` dict built by `search_knowledge_hybrid` from the vector and
full-text result lists (storage.py 324–336). -/
def hybridScores (rrfK : Nat) (vecResults ftsResults : List KnResult) : String → ℚ :=
  rrfAccum rrfK (ftsResults.map keyOf) 0 (rrfAccum rrfK (vecResults.map keyOf) 0 (fun _ => 0))

/-- The total RRF contribution a key collects from one ranked key list started
at a given rank. -/
def contribSum (rrfK : Nat) : List String → Nat → String → ℚ
  | [], _, _ => 0
  | key :: restKeys, rank, k =>
      (if k = key then 1 / ((rrfK : ℚ) + rank + 1) else 0) + contribSum rrfK restKeys (rank + 1) k

theorem rrfAccum_eq (rrfK : Nat) :
    ∀ (keys : List String) (rank : Nat) (scores : String → ℚ) (k : String),
      rrfAccum rrfK keys rank scores k = scores k + contribSum rrfK keys rank k := by
  intro keys
  induction keys with
  | nil => intro rank scores k; simp [rrfAccum, contribSum]
  | cons key restKeys ih =>
      intro rank scores k
      rw [show rrfAccum rrfK (key :: restKeys) rank scores =
          rrfAccum rrfK restKeys (rank + 1)
            (fun k' => if k' = key then scores key + 1 / ((rrfK : ℚ) + rank + 1) else scores k')
          from rfl, ih]
      show (if k = key then scores key + 1 / ((rrfK : ℚ) + rank + 1) else scores k) +
          contribSum rrfK restKeys (rank + 1) k =
        scores k + contribSum rrfK (key :: restKeys) rank k
      rw [show contribSum rrfK (key :: restKeys) rank k =
          (if k = key then 1 / ((rrfK : ℚ) + rank + 1) else 0) +
            contribSum rrfK restKeys (rank + 1) k from rfl]
      split_ifs with hk
      · rw [hk]
        ring
      · ring

theorem contribSum_not_mem (rrfK : Nat) :
    ∀ (keys : List String) (rank : Nat) (k : String), k ∉ keys →
      contribSum rrfK keys rank k = 0 := by
  intro keys
  induction keys with
  | nil => intro rank k _; rfl
  | cons key restKeys ih =>
      intro rank k hk
      have h1 : k ≠ key := fun h => hk (h ▸ List.mem_cons_self _ _)
      have h2 : k ∉ restKeys := fun h => hk (List.mem_cons_of_mem _ h)
      simp only [contribSum, if_neg h1, ih (rank + 1) k h2, add_zero]

theorem contribSum_single (rrfK : Nat) :
    ∀ (pre : List String) (k : String) (post : List String) (rank : Nat),
      k ∉ pre → k ∉ post →
      contribSum rrfK (pre ++ k :: post) rank k =
        1 / ((rrfK : ℚ) + rank + pre.length + 1) := by
  intro pre
  induction pre with
  | nil =>
      intro k post rank _ hpost
      show (if k = k then 1 / ((rrfK : ℚ) + rank + 1) else 0) +
          contribSum rrfK post (rank + 1) k =
        1 / ((rrfK : ℚ) + rank + ((List.length ([] : List String) : ℕ) : ℚ) + 1)
      rw [if_pos rfl, contribSum_not_mem rrfK post (rank + 1) k hpost, add_zero]
      norm_num
  | cons p pre ih =>
      intro k post rank hpre hpost
      have h1 : k ≠ p := fun h => hpre (h ▸ List.mem_cons_self _ _)
      have h2 : k ∉ pre := fun h => hpre (List.mem_cons_of_mem _ h)
      have hih := ih k post (rank + 1) h2 hpost
      show (if k = p then 1 / ((rrfK : ℚ) + rank + 1) else 0) +
          contribSum rrfK (pre ++ k :: post) (rank + 1) k =
        1 / ((rrfK : ℚ) + rank + (((p :: pre).length : ℕ) : ℚ) + 1)
      rw [if_neg h1, zero_add, hih]
      congr 1
      simp only [List.length_cons]
      push_cast
      ring

theorem hybridScores_eq (rrfK : Nat) (vecR ftsR : List KnResult) (k : String) :
    hybridScores rrfK vecR ftsR k =
      contribSum rrfK (vecR.map keyOf) 0 k + contribSum rrfK (ftsR.map keyOf) 0 k := by
  unfold hybridScores
  rw [rrfAccum_eq, rrfAccum_eq]
  ring

theorem rrf_contribution_pos (rrfK len : Nat) : 0 < 1 / ((rrfK : ℚ) + len + 1) := by
  positivity

/-- C7: in the hybrid RRF merge with `rrf_k > 0`, an entry whose key sits at
0-based rank `r₁` of the vector list and `r₂` of the full-text list is scored
`1/(rrf_k+r₁+1) + 1/(rrf_k+r₂+1)`, an entry appearing in only one list at the
same rank is scored the single corresponding term, and the former score is
strictly larger than either single-list score.  (Ranks are encoded as the
lengths of the prefixes `p1`, `p2`, `p3`, `p4` of the key lists.) -/
theorem C7_hybrid_rrf_monotonicity (rrfK : Nat) (hk : 0 < rrfK)
    (vecR ftsR : List KnResult) (keyB : String) (p1 q1 p2 q2 : List String)
    (hv : vecR.map keyOf = p1 ++ keyB :: q1) (hv1 : keyB ∉ p1) (hv2 : keyB ∉ q1)
    (hf : ftsR.map keyOf = p2 ++ keyB :: q2) (hf1 : keyB ∉ p2) (hf2 : keyB ∉ q2) :
    hybridScores rrfK vecR ftsR keyB =
      1 / ((rrfK : ℚ) + p1.length + 1) + 1 / ((rrfK : ℚ) + p2.length + 1) ∧
    (∀ (vecR2 ftsR2 : List KnResult) (keyV : String) (p3 q3 : List String),
      vecR2.map keyOf = p3 ++ keyV :: q3 → keyV ∉ p3 → keyV ∉ q3 →
      keyV ∉ ftsR2.map keyOf → p3.length = p1.length →
      hybridScores rrfK vecR2 ftsR2 keyV = 1 / ((rrfK : ℚ) + p1.length + 1) ∧
      hybridScores rrfK vecR2 ftsR2 keyV < hybridScores rrfK vecR ftsR keyB) ∧
    (∀ (vecR3 ftsR3 : List KnResult) (keyF : String) (p4 q4 : List String),
      ftsR3.map keyOf = p4 ++ keyF :: q4 → keyF ∉ p4 → keyF ∉ q4 →
      keyF ∉ vecR3.map keyOf → p4.length = p2.length →
      hybridScores rrfK vecR3 ftsR3 keyF = 1 / ((rrfK : ℚ) + p2.length + 1) ∧
      hybridScores rrfK vecR3 ftsR3 keyF < hybridScores rrfK vecR ftsR keyB) := by
  have hB : hybridScores rrfK vecR ftsR keyB =
      1 / ((rrfK : ℚ) + p1.length + 1) + 1 / ((rrfK : ℚ) + p2.length + 1) := by
    rw [hybridScores_eq, hv, hf, contribSum_single rrfK p1 keyB q1 0 hv1 hv2,
      contribSum_single rrfK p2 keyB q2 0 hf1 hf2]
    push_cast
    ring
  refine ⟨hB, ?_, ?_⟩
  · intro vecR2 ftsR2 keyV p3 q3 h3 h31 h32 h3f hlen
    have hV : hybridScores rrfK vecR2 ftsR2 keyV = 1 / ((rrfK : ℚ) + p1.length + 1) := by
      rw [hybridScores_eq, h3, contribSum_single rrfK p3 keyV q3 0 h31 h32,
        contribSum_not_mem rrfK _ 0 keyV h3f, add_zero, hlen]
      push_cast
      ring
    refine ⟨hV, ?_⟩
    rw [hV, hB]
    exact lt_add_of_pos_right _ (rrf_contribution_pos rrfK p2.length)
  · intro vecR3 ftsR3 keyF p4 q4 h4 h41 h42 h4v hlen
    have hF : hybridScores rrfK vecR3 ftsR3 keyF = 1 / ((rrfK : ℚ) + p2.length + 1) := by
      rw [hybridScores_eq, h4, contribSum_single rrfK p4 keyF q4 0 h41 h42,
        contribSum_not_mem rrfK _ 0 keyF h4v, zero_add, hlen]
      push_cast
      ring
    refine ⟨hF, ?_⟩
    rw [hF, hB]
    exact lt_add_of_pos_left _ (rrf_contribution_pos rrfK p1.length)

set_option maxRecDepth 10000 in
/-- Witness for C7: the entry keyed `"sb:b"` at vector rank 0 and full-text
rank 1, against a vector-only key `"sv:v"` and a full-text-only key `"sf:f"`,
with `rrf_k = 60`. -/
theorem C7_hybrid_rrf_monotonicity_witness :
    ([(⟨"b", "x", none, "sb", 0⟩ : KnResult), ⟨"v", "x", none, "sv", 0⟩].map keyOf =
        [] ++ "sb:b" :: ["sv:v"]) ∧
    hybridScores 60 [(⟨"b", "x", none, "sb", 0⟩ : KnResult), ⟨"v", "x", none, "sv", 0⟩]
        [(⟨"f", "x", none, "sf", 0⟩ : KnResult), ⟨"b", "y", none, "sb", 0⟩] "sb:b" =
      1 / ((60 : ℚ) + ([] : List String).length + 1) +
        1 / ((60 : ℚ) + (["sf:f"] : List String).length + 1) :=
  ⟨by decide,
    (C7_hybrid_rrf_monotonicity 60 (by decide)
      [⟨"b", "x", none, "sb", 0⟩, ⟨"v", "x", none, "sv", 0⟩]
      [⟨"f", "x", none, "sf", 0⟩, ⟨"b", "y", none, "sb", 0⟩]
      "sb:b" [] ["sv:v"] ["sf:f"] []
      (by decide) (by decide) (by decide) (by decide) (by decide) (by decide)).1⟩

/-! ## Storage layer — storage.py

The SQLite state is explicit: `Db` holds the code-index database (the
`code_chunks` table, its `code_chunks_vec` companion, and the `metadata`
table), `KnDb` the knowledge database.  The process-wide `_has_vec` flag is a
`Bool` parameter.  The sqlite-vec nearest-neighbour engine is opaque and
appears as a `knn` function from the requested `k` to the joined rows in
ascending-distance order. -/

/-- An embedding vector (float arithmetic modelled over `ℚ`). -/
abbrev EmbVec := List ℚ

/-- A row of `code_chunks`. -/
structure CodeRow where
  id : Nat
  filename : String
  location : String
  language : Option String
  code : List Char
  updatedAt : String
deriving DecidableEq

/-- The code-index database file: text table, vec0 companion, metadata table,
and the next AUTOINCREMENT id. -/
structure Db where
  codeChunks : List CodeRow
  codeVec : List (Nat × EmbVec)
  metadata : List (String × String)
  nextId : Nat
deriving DecidableEq

/-- `INSERT … ON CONFLICT(key) DO UPDATE` on the metadata table
(`storage.set_metadata`); the key is a primary key, so at most one row
matches. -/
def metaUpsert : List (String × String) → String → String → List (String × String)
  | [], key, value => [(key, value)]
  | p :: rest, key, value =>
      if p.1 = key then (key, value) :: rest else p :: metaUpsert rest key value

/-- `storage.get_metadata`. -/
def getMetadata (db : Db) (key : String) : Option String :=
  (db.metadata.find? (fun p => p.1 == key)).map (fun p => p.2)

/-- `storage.set_metadata`. -/
def setMetadata (db : Db) (key value : String) : Db :=
  { db with metadata := metaUpsert db.metadata key value }

/-- `storage.purge_all_code_chunks`: count the chunk rows, and unless there
are none delete everything from both tables (the vec0 table only when the
extension is available).  Returns the count. -/
def purge_all_code_chunks (hasVec : Bool) (db : Db) : Db × Nat :=
  let count := db.codeChunks.length
  if count = 0 then (db, 0)
  else
    ({ db with codeChunks := [], codeVec := if hasVec then [] else db.codeVec }, count)

/-- `INSERT OR REPLACE` into a vec0 table keyed by id. -/
def vecReplace (v : List (Nat × EmbVec)) (id : Nat) (emb : EmbVec) : List (Nat × EmbVec) :=
  v.filter (fun p => p.1 != id) ++ [(id, emb)]

/-- `storage.upsert_code_chunk`: insert `(filename, location, language, code,
now)`, on conflict of the unique key update language/code/updated_at keeping
the id, then insert-or-replace the vector companion when the extension is
available. -/
def upsert_code_chunk (hasVec : Bool) (now filename location : String)
    (language : Option String) (code : List Char) (embedding : EmbVec) (db : Db) : Db :=
  match db.codeChunks.find? (fun r => r.filename == filename && r.location == location) with
  | some r =>
      let db1 := { db with
        codeChunks := db.codeChunks.map (fun row =>
          if row.id = r.id then
            { row with language := language, code := code, updatedAt := now }
          else row) }
      if hasVec then { db1 with codeVec := vecReplace db1.codeVec r.id embedding } else db1
  | none =>
      let row : CodeRow := ⟨db.nextId, filename, location, language, code, now⟩
      let db1 := { db with codeChunks := db.codeChunks ++ [row], nextId := db.nextId + 1 }
      if hasVec then { db1 with codeVec := vecReplace db1.codeVec row.id embedding } else db1

/-- `storage.delete_stale_chunks`: collect the ids of this filename's rows
whose location is not in the keep set, delete them from both tables, return
how many.  The source's two SELECT branches (empty vs non-empty keep set)
both compute exactly these ids — `NOT IN` over the empty set holds vacuously
— so one filter models both. -/
def delete_stale_chunks (hasVec : Bool) (db : Db) (filename : String) (keep : List String) :
    Db × Nat :=
  let ids := (db.codeChunks.filter
    (fun r => r.filename == filename && !(keep.contains r.location))).map (fun r => r.id)
  if ids = [] then (db, 0)
  else
    ({ db with
        codeChunks := db.codeChunks.filter (fun r => !(ids.contains r.id)),
        codeVec := if hasVec then db.codeVec.filter (fun p => !(ids.contains p.1))
          else db.codeVec },
      ids.length)

/-- A row of `knowledge`. -/
structure KnRow where
  id : Nat
  content : String
  category : String
  tags : Option String
  storedAt : String
  updatedAt : String
deriving DecidableEq

/-- A knowledge database file. -/
structure KnDb where
  rows : List KnRow
  vec : List (Nat × EmbVec)
  nextId : Nat
deriving DecidableEq

/-- `storage.insert_knowledge` (tags arrive already JSON-serialized, `None`
when the tag map was empty): plain insert, vector companion only when the
extension is available; returns the new row id. -/
def insert_knowledge (hasVec : Bool) (now content category : String)
    (tagsJson : Option String) (embedding : EmbVec) (kdb : KnDb) : KnDb × Nat :=
  let row : KnRow := ⟨kdb.nextId, content, category, tagsJson, now, now⟩
  (⟨kdb.rows ++ [row],
    if hasVec then kdb.vec ++ [(row.id, embedding)] else kdb.vec,
    kdb.nextId + 1⟩, row.id)

/-- A row returned by the code vector-search join, with its vec0 distance. -/
structure CodeHit where
  distance : ℚ
  filename : String
  location : String
  language : Option String
  code : List Char
deriving DecidableEq

/-- A `search_code` result dict. -/
structure CodeResult where
  filename : String
  location : String
  language : Option String
  code : List Char
  score : ℚ
deriving DecidableEq

/-- `storage.search_code`: empty without the vector extension; otherwise the
`k` nearest rows with `score = 1 - distance`. -/
def search_code (hasVec : Bool) (knn : Nat → List CodeHit) (topK : Nat) : List CodeResult :=
  if hasVec = false then []
  else (knn topK).map (fun r => ⟨r.filename, r.location, r.language, r.code, 1 - r.distance⟩)

/-- A row returned by the knowledge vector-search join, with its distance. -/
structure KnHit where
  distance : ℚ
  content : String
  category : String
  tags : Option String
  storedAt : String
deriving DecidableEq

/-- Python truthiness of the `category` filter in `search_knowledge`:
`if category:` treats both `None` and the empty string as "no filter". -/
def categoryGiven : Option String → Option String
  | none => none
  | some c => if c = "" then none else some c

/-- `storage.search_knowledge`: empty without the vector extension; with a
truthy category filter, over-fetch `3·k` candidates, post-filter by equality
on the category column, truncate to `k`; relevance is `1 - distance`. -/
def search_knowledge (hasVec : Bool) (knn : Nat → List KnHit) (category : Option String)
    (topK : Nat) : List KnResult :=
  if hasVec = false then []
  else
    let rows : List KnHit := knn (match categoryGiven category with
      | some _ => topK * 3
      | none => topK)
    let kept : List KnHit := match categoryGiven category with
      | some c => (rows.filter (fun r => r.category == c)).take topK
      | none => rows
    kept.map (fun r => ⟨r.content, r.category, r.tags, r.storedAt, 1 - r.distance⟩)

/-- C9: when the vector extension is unavailable, `search_code` and
`search_knowledge` return `[]` without error; `upsert_code_chunk` and
`insert_knowledge` still write the text-table row and leave the vector
companion tables untouched. -/
theorem C9_vec_unavailable_never_fatal
    (knnC : Nat → List CodeHit) (knnK : Nat → List KnHit) (category : Option String)
    (topK : Nat) (now filename location : String) (language : Option String)
    (code : List Char) (emb embK : EmbVec) (db : Db)
    (content cat : String) (tagsJson : Option String) (kdb : KnDb) :
    search_code false knnC topK = [] ∧
    search_knowledge false knnK category topK = [] ∧
    (upsert_code_chunk false now filename location language code emb db).codeVec = db.codeVec ∧
    (∃ r ∈ (upsert_code_chunk false now filename location language code emb db).codeChunks,
      r.filename = filename ∧ r.location = location ∧ r.code = code ∧ r.updatedAt = now) ∧
    (insert_knowledge false now content cat tagsJson embK kdb).1.vec = kdb.vec ∧
    (∃ r ∈ (insert_knowledge false now content cat tagsJson embK kdb).1.rows,
      r.content = content ∧ r.category = cat) := by
  refine ⟨rfl, rfl, ?_, ?_, rfl, ?_⟩
  · cases hf : db.codeChunks.find?
        (fun r => r.filename == filename && r.location == location) with
    | some r => simp [upsert_code_chunk, hf]
    | none => simp [upsert_code_chunk, hf]
  · cases hf : db.codeChunks.find?
        (fun r => r.filename == filename && r.location == location) with
    | some r =>
        have hmem : r ∈ db.codeChunks := List.mem_of_find?_eq_some hf
        have hp := List.find?_some hf
        rw [Bool.and_eq_true] at hp
        have hfn : r.filename = filename := eq_of_beq hp.1
        have hloc : r.location = location := eq_of_beq hp.2
        refine ⟨{ r with language := language, code := code, updatedAt := now }, ?_, ?_⟩
        · simp only [upsert_code_chunk, hf]
          have : (fun row => if row.id = r.id then
              { row with language := language, code := code, updatedAt := now }
            else row) r =
              { r with language := language, code := code, updatedAt := now } := by
            simp
          rw [← this]
          exact List.mem_map_of_mem _ hmem
        · exact ⟨hfn, hloc, rfl, rfl⟩
    | none =>
        refine ⟨⟨db.nextId, filename, location, language, code, now⟩, ?_, rfl, rfl, rfl, rfl⟩
        simp [upsert_code_chunk, hf]
  · exact ⟨⟨kdb.nextId, content, cat, tagsJson, now, now⟩,
      List.mem_append_right _ (List.mem_singleton.mpr rfl), rfl, rfl⟩

/-- Witness for C9 at concrete inputs. -/
theorem C9_vec_unavailable_never_fatal_witness :
    search_code false (fun _ => []) 5 = [] ∧
    search_knowledge false (fun _ => []) none 5 = [] :=
  ⟨(C9_vec_unavailable_never_fatal (fun _ => []) (fun _ => []) none 5 "t" "f.py" "0:0"
      (some "python") ['x'] [] [] ⟨[], [], [], 1⟩ "c" "pattern" none ⟨[], [], 1⟩).1,
    (C9_vec_unavailable_never_fatal (fun _ => []) (fun _ => []) none 5 "t" "f.py" "0:0"
      (some "python") ['x'] [] [] ⟨[], [], [], 1⟩ "c" "pattern" none ⟨[], [], 1⟩).2.1⟩

/-- The one-hit nearest-neighbour oracle of the C8 counterexample. -/
def knnCE : Nat → List KnHit := fun _ => [⟨0, "x", "pattern", none, "t"⟩]

/-- C8 counterexample: with the non-null category filter `""`, the code
treats the filter as absent (Python truthiness of `if category:`), so it
neither over-fetches nor filters, and an entry whose category is `"pattern"`
is returned — the claim's "every returned entry has category c" fails at
`c = ""`. -/
theorem C8_counterexample :
    ∃ r ∈ search_knowledge true knnCE (some "") 1, r.category ≠ "" := by
  refine ⟨⟨"x", "pattern", none, "t", 1 - 0⟩, ?_, by decide⟩
  simp [search_knowledge, categoryGiven, knnCE]

/-- C8 as amended: for a non-null, **non-empty** category filter `c` and
`top_k > 0`, the vector knowledge search fetches `3·top_k` candidates, keeps
those with category `c`, truncates to `top_k`; hence every returned entry has
category `c`, at most `top_k` are returned, and (when the oracle returns
candidates in ascending distance order) results are in ascending distance
order, i.e. non-increasing relevance. -/
theorem C8_category_search (knn : Nat → List KnHit) (c : String) (topK : Nat)
    (hc : c ≠ "") (hk : 0 < topK)
    (hsorted : (knn (topK * 3)).Pairwise (fun a b => a.distance ≤ b.distance)) :
    search_knowledge true knn (some c) topK =
      (((knn (topK * 3)).filter (fun r => r.category == c)).take topK).map
        (fun r => ⟨r.content, r.category, r.tags, r.storedAt, 1 - r.distance⟩) ∧
    (∀ r ∈ search_knowledge true knn (some c) topK, r.category = c) ∧
    (search_knowledge true knn (some c) topK).length ≤ topK ∧
    (search_knowledge true knn (some c) topK).Pairwise
      (fun a b => b.relevance ≤ a.relevance) := by
  have hcg : categoryGiven (some c) = some c := by simp [categoryGiven, hc]
  have heq : search_knowledge true knn (some c) topK =
      (((knn (topK * 3)).filter (fun r => r.category == c)).take topK).map
        (fun r => ⟨r.content, r.category, r.tags, r.storedAt, 1 - r.distance⟩) := by
    simp [search_knowledge, hcg]
  refine ⟨heq, ?_, ?_, ?_⟩
  · intro r hr
    rw [heq] at hr
    obtain ⟨x, hx, rfl⟩ := List.mem_map.mp hr
    have hx' : x ∈ (knn (topK * 3)).filter (fun r => r.category == c) :=
      List.mem_of_mem_take hx
    have := List.of_mem_filter hx'
    exact eq_of_beq this
  · rw [heq, List.length_map]
    exact List.length_take_le _ _
  · rw [heq]
    have hp : (((knn (topK * 3)).filter (fun r => r.category == c)).take topK).Pairwise
        (fun a b : KnHit => a.distance ≤ b.distance) :=
      List.Pairwise.sublist (List.take_sublist _ _) (hsorted.filter _)
    exact List.Pairwise.map _ (fun a b hab => sub_le_sub_left hab 1) hp

/-- The two-hit sorted oracle of the C8 witness. -/
def knnW : Nat → List KnHit := fun _ =>
  [⟨0, "a", "pattern", none, "t1"⟩, ⟨1, "b", "other", none, "t2"⟩]

/-- Witness for the amended C8 at a concrete sorted oracle, category
`"pattern"`, `top_k = 1`. -/
theorem C8_category_search_witness :
    ("pattern" ≠ "" ∧ 0 < 1) ∧
    (∀ r ∈ search_knowledge true knnW (some "pattern") 1, r.category = "pattern") :=
  ⟨⟨by decide, by decide⟩,
    (C8_category_search knnW "pattern" 1 (by decide) (by decide) (by decide)).2.1⟩

/-! ## Knowledge query flow — flows/knowledge.py and cli.py

`flows.knowledge.query` (knowledge.py lines 27–38) opens its connection,
embeds the query text and always calls the pure vector search
`search_knowledge`; its parameter list is `(db_path, query_text, category,
top_k)` — no `hybrid` parameter and no `**kwargs`.  The CLI `query` command
(cli.py line 129) nevertheless calls
`query_knowledge(db_path, query_text, category, top_k, hybrid=hybrid)`.
A Python call whose keyword arguments name no parameter of the callee raises
`TypeError`. -/

/-- The parameter names of `flows.knowledge.query` (knowledge.py 27–32). -/
def queryKnowledgeParams : List String := ["db_path", "query_text", "category", "top_k"]

/-- The keyword-argument names of the call at cli.py line 129 beyond the
positional ones. -/
def cliQueryKeywordArgs : List String := ["hybrid"]

/-- Whether Python accepts a call with these keyword-argument names against a
callee with these parameter names and no `**kwargs`. -/
def pythonCallAccepted (params kwargs : List String) : Bool :=
  kwargs.all (fun k => params.contains k)

/-- The body of `flows.knowledge.query` (knowledge.py 33–38): embed the query
and run the pure vector search (connection and embedder abstracted as in
`search_knowledge`). -/
def query_knowledge (hasVec : Bool) (knn : Nat → List KnHit) (category : Option String)
    (topK : Nat) : List KnResult :=
  search_knowledge hasVec knn category topK

/-- C1 (code-bug evidence): `hybrid` names no parameter of
`flows.knowledge.query`, so the CLI call `query_knowledge(..., hybrid=hybrid)`
raises `TypeError`; and the flow as written always performs the pure vector
search — it never dispatches to the hybrid search, contrary to the claim. -/
theorem C1_query_knowledge_hybrid_code_bug :
    pythonCallAccepted queryKnowledgeParams cliQueryKeywordArgs = false ∧
    queryKnowledgeParams.contains "hybrid" = false ∧
    (∀ hasVec knn category topK,
      query_knowledge hasVec knn category topK = search_knowledge hasVec knn category topK) :=
  ⟨by decide, by decide, fun _ _ _ _ => rfl⟩

/-! ## Code indexing flow — flows/codebase.py

The walker and file reads are abstracted into `SrcFile` records (the spec's
§4.4 file walker is out of the claims' scope); `chunk_file` and the embedder
are function parameters, as tree-sitter and the embedding model are
environmental.  The flow threads an explicit state: the connection's view of
the database, the last committed snapshot, the two parallel pending buffers
(one list whose text projection is `pending_texts`), the stats dict, and a
trace of the storage calls made, for frame reasoning. -/

/-- The stats dict of `index_codebase`. -/
structure Stats where
  filesProcessed : Nat
  chunksIndexed : Nat
  chunksDeleted : Nat
  chunksPurged : Nat
deriving DecidableEq

/-- An enumerated source file: walker-relative POSIX path, lowercase suffix,
and the result of `read_text` (`none` models an `OSError`). -/
structure SrcFile where
  rel : String
  suffix : String
  content : Option (List Char)
deriving DecidableEq

/-- `_EXT_MAP` (codebase.py lines 26–41). -/
def extMap : List (String × String) :=
  [(".py", "python"), (".cs", "c_sharp"), (".rs", "rust"), (".ts", "typescript"),
   (".tsx", "tsx"), (".js", "javascript"), (".jsx", "javascript"), (".md", "markdown"),
   (".mdx", "markdown"), (".json", "json"), (".toml", "toml"), (".yaml", "yaml"),
   (".yml", "yaml"), (".gdscript", "gdscript")]

/-- Python `suffix.lstrip(".")`. -/
def stripDots (s : String) : String :=
  String.mk (s.toList.dropWhile (fun ch => ch = '.'))

/-- `lang = _EXT_MAP.get(suffix, suffix.lstrip("."))` (codebase.py 106). -/
def fileLang (f : SrcFile) : String :=
  (List.lookup f.suffix extMap).getD (stripDots f.suffix)

/-- A storage call made by the indexing loop. -/
inductive DbOp where
  | deleteStale (filename : String) (keep : List String)
  | upsert (filename location : String)
deriving DecidableEq

/-- The in-flight state of an `index_codebase` run. -/
structure FlowSt where
  db : Db
  committed : Db
  pending : List (String × String × String × List Char)
  stats : Stats
  ops : List DbOp
deriving DecidableEq

/-- `chunking.CHUNKER_VERSION`. -/
def CHUNKER_VERSION : String := "ts1"

/-- The `pending_texts` buffer: always the text projection of `pending` (the
source appends to and clears the two lists together). -/
def pendingTexts (p : List (String × String × String × List Char)) : List (List Char) :=
  p.map (fun q => q.2.2.2)

/-- `_flush` (codebase.py 139–142): embed the buffered texts and upsert each
chunk with its vector (`zip(..., strict=True)`; the embedder contract returns
one vector per text). -/
def flushPending (hasVec : Bool) (now : String) (embedFn : List (List Char) → List EmbVec)
    (db : Db) (pending : List (String × String × String × List Char)) : Db :=
  (pending.zip (embedFn (pendingTexts pending))).foldl
    (fun d pe =>
      upsert_code_chunk hasVec now pe.1.1 pe.1.2.1 (some pe.1.2.2.1) pe.1.2.2.2 pe.2 d)
    db

/-- Steps 2–3 of `index_codebase` (codebase.py 81–97): open the database,
initialize the schemas, read the stored `chunker_version`; on mismatch purge
all code chunks, record the purge count when non-zero, write the new version,
and commit — all before any file is processed. -/
def versionPhase (hasVec : Bool) (db0 : Db) : FlowSt :=
  if getMetadata db0 "chunker_version" = some CHUNKER_VERSION then
    ⟨db0, db0, [], ⟨0, 0, 0, 0⟩, []⟩
  else
    let pr := purge_all_code_chunks hasVec db0
    let db1 := setMetadata pr.1 "chunker_version" CHUNKER_VERSION
    ⟨db1, db1, [], ⟨0, 0, 0, if pr.2 ≠ 0 then pr.2 else 0⟩, []⟩

/-- One iteration of the `for file_path in files` loop (codebase.py 104–128):
skip unreadable and whitespace-only files before touching the database;
otherwise chunk, delete stale rows for this filename, buffer the chunks, and
flush a full batch. -/
def stepFile (hasVec : Bool) (chunkSize overlap batchSize : Nat) (now : String)
    (chunkFn : Option String → List Char → Nat → Nat → List Chunk)
    (embedFn : List (List Char) → List EmbVec) (st : FlowSt) (f : SrcFile) : FlowSt :=
  match f.content with
  | none => st
  | some content =>
      if hasNonWs content = false then st
      else
        let lang := fileLang f
        let chunks := chunkFn (List.lookup f.suffix extMap) content chunkSize overlap
        let keep := chunks.map Chunk.location
        let dr := delete_stale_chunks hasVec st.db f.rel keep
        let stats1 : Stats := ⟨st.stats.filesProcessed + 1, st.stats.chunksIndexed,
          st.stats.chunksDeleted + dr.2, st.stats.chunksPurged⟩
        let pending1 := st.pending ++ chunks.map (fun c => (f.rel, c.location, lang, c.text))
        let ops1 := st.ops ++ [DbOp.deleteStale f.rel keep]
        if batchSize ≤ (pendingTexts pending1).length then
          ⟨flushPending hasVec now embedFn dr.1 pending1, st.committed, [],
            ⟨stats1.filesProcessed, stats1.chunksIndexed + (pendingTexts pending1).length,
              stats1.chunksDeleted, stats1.chunksPurged⟩,
            ops1 ++ pending1.map (fun q => DbOp.upsert q.1 q.2.1)⟩
        else
          ⟨dr.1, st.committed, pending1, stats1, ops1⟩

/-- Steps 7–8 of `index_codebase` (codebase.py 130–136): flush a non-empty
remaining buffer, then commit. -/
def finishRun (hasVec : Bool) (now : String) (embedFn : List (List Char) → List EmbVec)
    (st : FlowSt) : FlowSt :=
  let st1 : FlowSt :=
    if pendingTexts st.pending = [] then st
    else
      ⟨flushPending hasVec now embedFn st.db st.pending, st.committed, [],
        ⟨st.stats.filesProcessed, st.stats.chunksIndexed + (pendingTexts st.pending).length,
          st.stats.chunksDeleted, st.stats.chunksPurged⟩,
        st.ops ++ st.pending.map (fun q => DbOp.upsert q.1 q.2.1)⟩
  ⟨st1.db, st1.db, st1.pending, st1.stats, st1.ops⟩

/-- `flows.codebase.index_codebase`: version phase, then the file loop, then
the final flush and commit; the returned stats dict is the `.stats` field of
the result. -/
def index_codebase (hasVec : Bool) (chunkSize overlap batchSize : Nat) (now : String)
    (chunkFn : Option String → List Char → Nat → Nat → List Chunk)
    (embedFn : List (List Char) → List EmbVec)
    (files : List SrcFile) (db0 : Db) : FlowSt :=
  finishRun hasVec now embedFn
    (files.foldl (stepFile hasVec chunkSize overlap batchSize now chunkFn embedFn)
      (versionPhase hasVec db0))

theorem metaUpsert_get (key value : String) :
    ∀ l : List (String × String),
      ((metaUpsert l key value).find? (fun p => p.1 == key)).map (fun p => p.2) = some value := by
  intro l
  induction l with
  | nil => simp [metaUpsert]
  | cons p rest ih =>
      by_cases hp : p.1 = key
      · simp [metaUpsert, hp]
      · have hfalse : (p.1 == key) = false := by
          simpa using hp
        simp only [metaUpsert, if_neg hp, List.find?_cons, hfalse]
        exact ih

theorem getMetadata_setMetadata (db : Db) (key value : String) :
    getMetadata (setMetadata db key value) key = some value := by
  simpa [getMetadata, setMetadata] using metaUpsert_get key value db.metadata

theorem stepFile_chunksPurged (hasVec : Bool) (cs ov bs : Nat) (now : String)
    (chunkFn : Option String → List Char → Nat → Nat → List Chunk)
    (embedFn : List (List Char) → List EmbVec) (st : FlowSt) (f : SrcFile) :
    (stepFile hasVec cs ov bs now chunkFn embedFn st f).stats.chunksPurged =
      st.stats.chunksPurged := by
  cases hc : f.content with
  | none => simp [stepFile, hc]
  | some content =>
      simp only [stepFile, hc]
      split
      · rfl
      · split <;> rfl

theorem foldl_stepFile_chunksPurged (hasVec : Bool) (cs ov bs : Nat) (now : String)
    (chunkFn : Option String → List Char → Nat → Nat → List Chunk)
    (embedFn : List (List Char) → List EmbVec) :
    ∀ (files : List SrcFile) (st : FlowSt),
      (files.foldl (stepFile hasVec cs ov bs now chunkFn embedFn) st).stats.chunksPurged =
        st.stats.chunksPurged := by
  intro files
  induction files with
  | nil => intro st; rfl
  | cons f fs ih =>
      intro st
      rw [List.foldl_cons, ih, stepFile_chunksPurged]

theorem finishRun_chunksPurged (hasVec : Bool) (now : String)
    (embedFn : List (List Char) → List EmbVec) (st : FlowSt) :
    (finishRun hasVec now embedFn st).stats.chunksPurged = st.stats.chunksPurged := by
  simp only [finishRun]
  split <;> rfl

/-- C4: when the stored `chunker_version` differs from the compiled-in
constant (also when absent), the version phase — which `index_codebase` runs
before any file is processed — empties the chunk table and (when the vector
extension is present) its vec0 companion, records the pre-purge row count as
`chunks_purged` (also returned unchanged by the whole run), writes the new
version, and leaves the committed snapshot equal to the live state.  `hcomp`
is the data-model invariant that every vec0 row has a companion chunk row. -/
theorem C4_version_mismatch_purges (hasVec : Bool) (cs ov bs : Nat) (now : String)
    (chunkFn : Option String → List Char → Nat → Nat → List Chunk)
    (embedFn : List (List Char) → List EmbVec) (files : List SrcFile) (db0 : Db)
    (hver : getMetadata db0 "chunker_version" ≠ some CHUNKER_VERSION)
    (hcomp : ∀ p ∈ db0.codeVec, ∃ r ∈ db0.codeChunks, p.1 = r.id) :
    (versionPhase hasVec db0).db.codeChunks = [] ∧
    (hasVec = true → (versionPhase hasVec db0).db.codeVec = []) ∧
    (versionPhase hasVec db0).stats.chunksPurged = db0.codeChunks.length ∧
    getMetadata (versionPhase hasVec db0).db "chunker_version" = some CHUNKER_VERSION ∧
    (versionPhase hasVec db0).committed = (versionPhase hasVec db0).db ∧
    (index_codebase hasVec cs ov bs now chunkFn embedFn files db0).stats.chunksPurged =
      db0.codeChunks.length := by
  have hfinal : (index_codebase hasVec cs ov bs now chunkFn embedFn files db0).stats.chunksPurged =
      (versionPhase hasVec db0).stats.chunksPurged := by
    unfold index_codebase
    rw [finishRun_chunksPurged, foldl_stepFile_chunksPurged]
  by_cases h0 : db0.codeChunks.length = 0
  · have hnil : db0.codeChunks = [] := List.length_eq_zero.mp h0
    have hvecnil : db0.codeVec = [] := by
      cases hv : db0.codeVec with
      | nil => rfl
      | cons p ps =>
          obtain ⟨r, hr, _⟩ := hcomp p (by rw [hv]; exact List.mem_cons_self _ _)
          rw [hnil] at hr
          exact absurd hr (List.not_mem_nil r)
    have hvp : versionPhase hasVec db0 =
        ⟨setMetadata db0 "chunker_version" CHUNKER_VERSION,
          setMetadata db0 "chunker_version" CHUNKER_VERSION, [], ⟨0, 0, 0, 0⟩, []⟩ := by
      simp [versionPhase, hver, purge_all_code_chunks, h0]
    rw [hvp] at hfinal ⊢
    refine ⟨hnil, fun _ => hvecnil, h0.symm, getMetadata_setMetadata _ _ _, rfl, ?_⟩
    rw [hfinal]
    exact h0.symm
  · have hvp : versionPhase hasVec db0 =
        ⟨setMetadata ⟨[], if hasVec then [] else db0.codeVec, db0.metadata, db0.nextId⟩
            "chunker_version" CHUNKER_VERSION,
          setMetadata ⟨[], if hasVec then [] else db0.codeVec, db0.metadata, db0.nextId⟩
            "chunker_version" CHUNKER_VERSION, [],
          ⟨0, 0, 0, db0.codeChunks.length⟩, []⟩ := by
      simp [versionPhase, hver, purge_all_code_chunks, h0]
    rw [hvp] at hfinal ⊢
    refine ⟨rfl, fun hv => ?_, rfl, getMetadata_setMetadata _ _ _, rfl, hfinal⟩
    rw [hv]
    rfl

/-- The concrete one-chunk database of the C4 witness. -/
def dbC4 : Db := ⟨[⟨1, "a.py", "0:0", some "python", ['x'], "t0"⟩], [(1, [])], [], 2⟩

/-- Witness for C4: no stored version, one chunk row with its vec0 companion,
vector extension available, no files. -/
theorem C4_version_mismatch_purges_witness :
    getMetadata dbC4 "chunker_version" ≠ some CHUNKER_VERSION ∧
    ((versionPhase true dbC4).db.codeChunks = [] ∧
      (true = true → (versionPhase true dbC4).db.codeVec = []) ∧
      (versionPhase true dbC4).stats.chunksPurged = dbC4.codeChunks.length ∧
      getMetadata (versionPhase true dbC4).db "chunker_version" = some CHUNKER_VERSION ∧
      (versionPhase true dbC4).committed = (versionPhase true dbC4).db ∧
      (index_codebase true 1000 300 32 "t" (fun _ _ _ _ => []) (fun _ => [])
          [] dbC4).stats.chunksPurged = dbC4.codeChunks.length) :=
  ⟨by decide,
    C4_version_mismatch_purges true 1000 300 32 "t" (fun _ _ _ _ => []) (fun _ => [])
      [] dbC4 (by decide) (by decide)⟩

/-- C10: a file whose read raised `OSError` or whose decoded content is
whitespace-only causes no database operation at all: the loop body is the
identity on the whole run state (database, committed snapshot, pending
buffers, stats, and the trace of storage calls — in particular no
`delete_stale_chunks` and no upsert for that filename), and the run over any
file list containing such a file equals the run with the file removed. -/
theorem C10_skipped_file_no_db_ops (hasVec : Bool) (cs ov bs : Nat) (now : String)
    (chunkFn : Option String → List Char → Nat → Nat → List Chunk)
    (embedFn : List (List Char) → List EmbVec) (f : SrcFile)
    (hskip : ∀ content, f.content = some content → hasNonWs content = false) :
    (∀ st : FlowSt, stepFile hasVec cs ov bs now chunkFn embedFn st f = st) ∧
    (∀ (st0 : FlowSt) (xs ys : List SrcFile),
      (xs ++ f :: ys).foldl (stepFile hasVec cs ov bs now chunkFn embedFn) st0 =
        (xs ++ ys).foldl (stepFile hasVec cs ov bs now chunkFn embedFn) st0) := by
  have hstep : ∀ st : FlowSt, stepFile hasVec cs ov bs now chunkFn embedFn st f = st := by
    intro st
    cases hc : f.content with
    | none => simp [stepFile, hc]
    | some content =>
        have hws := hskip content hc
        simp [stepFile, hc, hws]
  refine ⟨hstep, ?_⟩
  intro st0 xs ys
  rw [List.foldl_append, List.foldl_append, List.foldl_cons, hstep]

/-- Witness for C10 at a concrete unreadable file. -/
theorem C10_skipped_file_no_db_ops_witness :
    (∀ content, (⟨"sub/a.py", ".py", none⟩ : SrcFile).content = some content →
      hasNonWs content = false) ∧
    (∀ st : FlowSt, stepFile true 1000 300 32 "t" (fun _ _ _ _ => []) (fun _ => []) st
        ⟨"sub/a.py", ".py", none⟩ = st) :=
  ⟨fun _ hc => Option.noConfusion hc,
    (C10_skipped_file_no_db_ops true 1000 300 32 "t" (fun _ _ _ _ => []) (fun _ => [])
      ⟨"sub/a.py", ".py", none⟩ (fun _ hc => Option.noConfusion hc)).1⟩

end MemorySidecar
